import Mathlib

/-!
Verification of the HTTP/1.1 request-parsing core of `http-from-scratch`.

The development shallowly embeds the Go sources:
  * `internal/headers/headers.go` — the header table (`Headers`), its
    `Get`/`Set` operations, the token validator `isToken`, `parseHeader`
    and the incremental field-line parser `Headers.Parse`;
  * `internal/request` — `parseRequestLine`, the state-machine
    `Request.parse` and the driving loop `RequestFromReader`.

Byte slices are modelled as `List Char` (the sources only ever compare
ASCII bytes).  Go's unbounded `for` loops become fuel-indexed recursion:
`none` models a call that never returns.  Go's out-of-range slice panic in
the body state is modelled by an explicit `fault` outcome.
-/

set_option maxRecDepth 8192

abbrev Bytes := List Char

/-- Byte-sequence literal helper. -/
def str (s : String) : Bytes := s.toList

/-- The CRLF line terminator, `rn` / `SEPARATOR` in the sources. -/
def crlf : Bytes := ['\r', '\n']

/-- Whether the two-byte sequence CRLF occurs anywhere in the data:
`bytes.Index(data, rn) != -1` in the Go source. -/
def containsCRLF : Bytes → Bool
  | [] => false
  | c :: rest => (c == '\r' && rest.head? == some '\n') || containsCRLF rest

/-- Split at the first CRLF: `idx := bytes.Index(data, rn)` followed by
taking `data[:idx]` and `data[idx+2:]`.  `none` when no CRLF occurs. -/
def lineSplit? : Bytes → Option (Bytes × Bytes)
  | [] => none
  | c :: rest =>
    if c == '\r' && rest.head? == some '\n' then some ([], rest.tail)
    else (lineSplit? rest).map fun p => (c :: p.1, p.2)

/-- `strings.ToLower` on one ASCII character. -/
def goToLowerChar (c : Char) : Char :=
  if 'A' ≤ c ∧ c ≤ 'Z' then Char.ofNat (c.toNat + 32) else c

/-- `strings.ToLower` (the sources only lower-case ASCII header names). -/
def goToLower (s : Bytes) : Bytes := s.map goToLowerChar

/-- The ASCII white-space class `bytes.TrimSpace` trims. -/
def goIsSpace (c : Char) : Bool :=
  c == ' ' || c == '\t' || c == '\n' || c == Char.ofNat 11 || c == Char.ofNat 12 || c == '\r'

/-- `bytes.TrimSpace`. -/
def trimSpace (s : Bytes) : Bytes :=
  ((s.dropWhile goIsSpace).reverse.dropWhile goIsSpace).reverse

/-- `bytes.Cut(s, sep)` for a one-byte separator: the parts before and
after the first occurrence, `none` when the separator does not occur. -/
def goCut (sep : Char) : Bytes → Option (Bytes × Bytes)
  | [] => none
  | c :: rest =>
    if c == sep then some ([], rest)
    else (goCut sep rest).map fun p => (c :: p.1, p.2)

/-- The characters of the `switch` in `isToken`. -/
def tokenSpecials : Bytes := str "!#$%&'*+-.^_`|~"

/-- One character of `isToken`'s loop.  The source tests
`ch > 'A' && ch < 'Z' || ch > 'a' && ch < 'z' || ch > '0' && ch < '9'`
with strict inequalities, so the boundary characters themselves fail the
range test. -/
def isTokenChar (c : Char) : Bool :=
  (('A' < c && c < 'Z') || ('a' < c && c < 'z') || ('0' < c && c < '9'))
    || tokenSpecials.contains c

/-- `isToken` of `headers.go`: every character passes `isTokenChar`. -/
def isToken (name : Bytes) : Bool := name.all isTokenChar

/-- The distinct error values of the sources.  `unsupportedHttpVersion`
embeds `ERROR_UNSUPPORTED_HTTP_VERSION`, which `request.go` declares but
never returns. -/
inductive HttpError
  | malformedRequestLine
  | unsupportedHttpVersion
  | malformedHeaderName
  | malformedFieldName
  | malformedFieldLine
  deriving DecidableEq, Repr

deriving instance DecidableEq for Except

/-- `parseHeader` of `headers.go`: cut the field line at the first `:`,
trim the value, validate the name. -/
def parseHeader (fieldLine : Bytes) : Except HttpError (Bytes × Bytes) :=
  match goCut ':' fieldLine with
  | some (name, val0) =>
    let val := trimSpace val0
    if isToken name = false then .error .malformedHeaderName
    else if name.getLast? = some ' ' then .error .malformedFieldName
    else .ok (name, val)
  | none => .error .malformedFieldLine

/-- The header table.  The Go `map[string]string` is embedded as an
association list with distinct keys (`Set` overwrites in place). -/
abbrev Headers := List (Bytes × Bytes)

/-- The map lookup `h.headers[strings.ToLower(name)]` together with its
presence flag (`v, ok := m[k]`). -/
def Headers.Get? (h : Headers) (name : Bytes) : Option Bytes :=
  (h.find? fun p => p.1 == goToLower name).map Prod.snd

/-- `Get` of `headers.go`: it returns only the map value, which is the
empty string when the key is absent (no presence flag). -/
def Headers.Get (h : Headers) (name : Bytes) : Bytes :=
  (h.Get? name).getD []

/-- `Set` of `headers.go`: `h.headers[strings.ToLower(name)] = value`,
a plain overwrite of the map entry. -/
def Headers.Set (h : Headers) (name value : Bytes) : Headers :=
  let key := goToLower name
  if h.any fun p => p.1 == key then
    h.map fun p => if p.1 == key then (key, value) else p
  else h ++ [(key, value)]

/-- The result of `Headers.Parse`: the table after the call (the Go
receiver is mutated in place), the consumed byte count, the
header-section-complete flag, and the error if any. -/
structure HeadersParsed where
  table : Headers
  read : Nat
  done : Bool
  err : Option HttpError
  deriving DecidableEq, Repr

/-- The loop of `Headers.Parse`, fuel-indexed.  Each iteration consumes a
whole CRLF-terminated line, so `data.length + 1` fuel always suffices. -/
def parseLinesAux : Nat → Headers → Bytes → HeadersParsed
  | 0, h, _ => ⟨h, 0, false, none⟩
  | fuel + 1, h, data =>
    match lineSplit? data with
    | none => ⟨h, 0, false, none⟩
    | some ([], _) => ⟨h, 2, true, none⟩
    | some (line, rest) =>
      match parseHeader line with
      | .error e => ⟨h, 0, false, some e⟩
      | .ok (name, val) =>
        let res := parseLinesAux fuel (Headers.Set h name val) rest
        match res.err with
        | some e => ⟨res.table, 0, false, some e⟩
        | none => ⟨res.table, line.length + 2 + res.read, res.done, none⟩

/-- `Parse` of `headers.go`.  On error the source returns `0, false, err`
(discarding the committed count), but the `Set` calls made for earlier
lines of the same buffer have already mutated the receiver: the result
carries that mutated table. -/
def Headers.Parse (h : Headers) (data : Bytes) : HeadersParsed :=
  parseLinesAux (data.length + 1) h data

/-- `RequestLine` of `request.go`. -/
structure RequestLine where
  httpVersion : Bytes
  requestTarget : Bytes
  method : Bytes
  deriving DecidableEq, Repr

/-- The closed set of `parserState` values the source uses. -/
inductive ParserState
  | StateInit
  | StateHeaders
  | StateBody
  | StateDone
  deriving DecidableEq, Repr

/-- `Request` of `request.go`. -/
structure Request where
  requestLine : RequestLine
  state : ParserState
  headers : Headers
  body : Bytes
  deriving DecidableEq, Repr

/-- `newRequest`: initial state, empty header map, empty body; the
request line starts as Go's zero value. -/
def newRequest : Request := ⟨⟨[], [], []⟩, .StateInit, [], []⟩

/-- The digits of a decimal literal, `none` unless nonempty and all
digits. -/
def natFromDigits? : Bytes → Option Nat
  | [] => none
  | ds => ds.foldlM (fun acc c =>
      if '0' ≤ c ∧ c ≤ '9' then some (acc * 10 + (c.toNat - '0'.toNat)) else none) 0

/-- `strconv.Atoi`: optional sign then decimal digits (the sources only
ever convert small Content-Length values, so int64 overflow is not
modelled). -/
def Atoi? (s : Bytes) : Option Int :=
  match s with
  | '+' :: rest => (natFromDigits? rest).map fun n => (n : Int)
  | '-' :: rest => (natFromDigits? rest).map fun n => -(n : Int)
  | _ => (natFromDigits? s).map fun n => (n : Int)

/-- `getInt` of `request.go`: it calls the two-valued form
`valStr, exists := headers.Get(name)` (the form the tests and
`request.go` compile against) and falls back to the default when the
header is absent or `strconv.Atoi` fails. -/
def getInt (h : Headers) (name : Bytes) (defaultValue : Int) : Int :=
  match h.Get? name with
  | none => defaultValue
  | some valStr => (Atoi? valStr).getD defaultValue

/-- `parseRequestLine` of `request.go`.  `.ok none` is the
`nil, 0, nil` "need more data" return.  Both the token-count check and
the version check return `ERROR_MALFORMED_REQUESTLINE` in the source. -/
def parseRequestLine (b : Bytes) : Except HttpError (Option (RequestLine × Nat)) :=
  match lineSplit? b with
  | none => .ok none
  | some (startLine, _) =>
    let read := startLine.length + 2
    match startLine.splitOn ' ' with
    | [m, t, v] =>
      match v.splitOn '/' with
      | [p0, p1] =>
        if p0 = str "HTTP" ∧ p1 = str "1.1" then .ok (some (⟨p1, t, m⟩, read))
        else .error .malformedRequestLine
      | _ => .error .malformedRequestLine
    | _ => .error .malformedRequestLine

/-- What one call of `Request.parse` does: returns normally with a
consumed count, returns an error, or faults at the out-of-range slice
`currentData[:toRead]` with `toRead < 0`. -/
inductive ParseOutcome
  | ok (r : Request) (read : Nat)
  | err (r : Request) (e : HttpError)
  | fault (r : Request)
  deriving DecidableEq, Repr

/-- The `for ... switch r.state` loop of `Request.parse`, fuel-indexed:
`none` models an iteration budget exhausted, i.e. a call that loops
forever on any fuel.  The body state mirrors the source exactly: it has
no "need more data" exit, and `min(remaining, len(currentData))` can be
negative, in which case Go's `currentData[:toRead]` panics (`fault`). -/
def Request.parse : Nat → Request → Bytes → Nat → Option ParseOutcome
  | 0, _, _, _ => none
  | fuel + 1, r, data, read =>
    let currentData := data.drop read
    match r.state with
    | .StateInit =>
      match parseRequestLine currentData with
      | .error e => some (.err r e)
      | .ok none => some (.ok r read)
      | .ok (some (rl, n)) =>
        Request.parse fuel { r with requestLine := rl, state := .StateHeaders } data (read + n)
    | .StateHeaders =>
      let res := Headers.Parse r.headers currentData
      match res.err with
      | some e => some (.err { r with headers := res.table } e)
      | none =>
        if res.read = 0 then some (.ok { r with headers := res.table } read)
        else
          Request.parse fuel
            { r with headers := res.table,
                     state := if res.done then .StateBody else .StateHeaders }
            data (read + res.read)
    | .StateBody =>
      let length := getInt r.headers (str "content-length") 0
      if length = 0 then
        Request.parse fuel { r with state := .StateDone } data read
      else
        let toRead := min (length - (r.body.length : Int)) (currentData.length : Int)
        if toRead < 0 then some (.fault r)
        else
          let r2 := { r with body := r.body ++ currentData.take toRead.toNat }
          if (r2.body.length : Int) = length then
            Request.parse fuel { r2 with state := .StateDone } data (read + toRead.toNat)
          else
            Request.parse fuel r2 data (read + toRead.toNat)
    | .StateDone => some (.ok r read)

/-- What `RequestFromReader` produces: the completed request, a read
error (source exhausted before Done), a parse error, or the body-state
slice fault. -/
inductive ReadResult
  | ok (r : Request)
  | readErr
  | parseErr (e : HttpError)
  | fault
  deriving DecidableEq, Repr

/-- `RequestFromReader` of `request.go`, fuel-indexed.  The buffer is
the source's fixed `make([]byte, 1024)`: each read delivers at most the
free space `1024 - bufLen`.  The reader is a queue of chunks; an
exhausted reader returns an error (`io.EOF`), which the source
propagates.  After each parse the consumed prefix is discarded
(`copy(buf, buf[readN:bufLen])`). -/
def RequestFromReader : Nat → Request → Bytes → List Bytes → Option ReadResult
  | 0, _, _, _ => none
  | fuel + 1, r, buf, chunks =>
    if r.state = .StateDone then some (.ok r)
    else
      match chunks with
      | [] => some .readErr
      | c :: rest =>
        let space := 1024 - buf.length
        let delivered := c.take space
        let leftover := c.drop space
        let rest2 := if leftover = [] then rest else leftover :: rest
        let buf2 := buf ++ delivered
        match Request.parse (fuel + 1) r buf2 0 with
        | none => none
        | some (.err _ e) => some (.parseErr e)
        | some (.fault _) => some .fault
        | some (.ok r2 n) => RequestFromReader fuel r2 (buf2.drop n) rest2

/-- A well-formed field line: free of CRLF and accepted by
`parseHeader`. -/
def validLine (l : Bytes) : Bool :=
  !containsCRLF l &&
    match parseHeader l with
    | .ok _ => true
    | .error _ => false

/-- Serialize field lines, each terminated by CRLF (a header block is
`joinLines ls ++ crlf`, the final CRLF being the empty terminator
line). -/
def joinLines (ls : List Bytes) : Bytes := (ls.map (· ++ crlf)).flatten

/-- The `Set` call `Headers.Parse` performs for one accepted line. -/
def applyLine (h : Headers) (l : Bytes) : Headers :=
  match parseHeader l with
  | .ok (name, val) => h.Set name val
  | .error _ => h

/-- The table after parsing a sequence of accepted lines in order. -/
def applyLines (h : Headers) (ls : List Bytes) : Headers := ls.foldl applyLine h

/-- The caller protocol of the spec: feed each chunk prepended with the
unconsumed suffix retained from the previous call, accumulating the
total consumed count.  `none` when some call returns an error. -/
def feedChunks : List Bytes → Headers → Bytes → Option (Headers × Bytes × Nat)
  | [], h, pending => some (h, pending, 0)
  | c :: cs, h, pending =>
    let res := Headers.Parse h (pending ++ c)
    match res.err with
    | some _ => none
    | none =>
      (feedChunks cs res.table ((pending ++ c).drop res.read)).map
        fun r => (r.1, r.2.1, res.read + r.2.2)

/-- The spec's one-byte-at-a-time example message. -/
def postExample : Bytes := str "POST /a HTTP/1.1\r\nContent-Length: 5\r\n\r\nhello"

/-- The parser state reached by the byte-at-a-time feed of `postExample`
just before the byte completing the blank line is processed. -/
def midRequest : Request :=
  ⟨⟨str "1.1", str "/a", str "POST"⟩, .StateHeaders, [(str "content-length", str "5")], []⟩

/-- Deliver a message one byte per read. -/
def byteChunks (s : Bytes) : List Bytes := s.map fun c => [c]

/-- A valid request whose request line is longer than the source's fixed
1024-byte buffer. -/
def bigRequest : Bytes := str "GET /" ++ List.replicate 1200 'a' ++ str " HTTP/1.1\r\n\r\n"

/-- The position of each state along the forward-only order
Init → Headers → Body → Done. -/
def stateRank : ParserState → Nat
  | .StateInit => 0
  | .StateHeaders => 1
  | .StateBody => 2
  | .StateDone => 3

/-- The request value carried out of one `Request.parse` call. -/
def ParseOutcome.request : ParseOutcome → Request
  | .ok r _ => r
  | .err r _ => r
  | .fault r => r

-- sanity examples (spec §8)
example : (Headers.Parse [] (str "Host: localhost:42069\r\nFoo:     barbar  \r\n")).read = 42 := by decide
example : (Headers.Parse [] (str "Host: localhost:42069\r\nFoo:     barbar  \r\n")).done = false := by decide
example : Headers.Get (Headers.Parse [] (str "Host: localhost:42069\r\n")).table (str "HOST")
    = str "localhost:42069" := by decide

-- sanity examples
example : Request.parse 8 newRequest (str "POST /a HTTP/1.1\r\nContent-Length: 5\r\n\r\nhello") 0
    = some (.ok ⟨⟨str "1.1", str "/a", str "POST"⟩, .StateDone,
        [(str "content-length", str "5")], str "hello"⟩ 44) := by decide
example : RequestFromReader 6 newRequest [] [str "GET / HTTP/1.1\r\n\r\n"]
    = some (.ok ⟨⟨str "1.1", str "/", str "GET"⟩, .StateDone, [], []⟩) := by decide

theorem containsCRLF_eq_false_of_no_cr (d : Bytes) (h : ∀ c ∈ d, c ≠ '\r') :
    containsCRLF d = false := by
  induction d with
  | nil => rfl
  | cons c rest ih =>
    have hc : (c == '\r') = false := by
      simpa using h c (List.mem_cons_self c rest)
    simp [containsCRLF, hc, ih fun x hx => h x (List.mem_cons_of_mem _ hx)]

theorem lineSplit?_eq_none_iff (d : Bytes) : lineSplit? d = none ↔ containsCRLF d = false := by
  induction d with
  | nil => simp [lineSplit?, containsCRLF]
  | cons c rest ih =>
    by_cases h : (c == '\r' && rest.head? == some '\n') = true
    · simp [lineSplit?, containsCRLF, h]
    · simp [lineSplit?, containsCRLF, h, ih]

theorem containsCRLF_append_crlf_true (x y : Bytes) :
    containsCRLF (x ++ '\r' :: '\n' :: y) = true := by
  induction x with
  | nil => simp [containsCRLF]
  | cons c rest ih => simp [containsCRLF, ih]

theorem containsCRLF_iff (l : Bytes) :
    containsCRLF l = true ↔ ∃ x y, l = x ++ '\r' :: '\n' :: y := by
  constructor
  · induction l with
    | nil => simp [containsCRLF]
    | cons c rest ih =>
      intro h
      by_cases h1 : (c == '\r' && rest.head? == some '\n') = true
      · have hc' : c = '\r' ∧ rest.head? = some '\n' := by simpa using h1
        cases rest with
        | nil => simp at hc'
        | cons c2 t =>
          simp only [List.head?_cons, Option.some.injEq] at hc'
          exact ⟨[], t, by simp [hc'.1, hc'.2]⟩
      · have hA : (c == '\r' && rest.head? == some '\n') = false := by
          revert h1; cases (c == '\r' && rest.head? == some '\n') <;> simp
        have h2 : containsCRLF rest = true := by
          simp only [containsCRLF, hA, Bool.false_or] at h; exact h
        obtain ⟨x, y, hxy⟩ := ih h2
        exact ⟨c :: x, y, by simp [hxy]⟩
  · rintro ⟨x, y, rfl⟩
    exact containsCRLF_append_crlf_true x y

theorem containsCRLF_take (n : Nat) (l : Bytes) (h : containsCRLF (l.take n) = true) :
    containsCRLF l = true := by
  obtain ⟨x, y, hxy⟩ := (containsCRLF_iff _).mp h
  refine (containsCRLF_iff l).mpr ⟨x, y ++ l.drop n, ?_⟩
  conv_lhs => rw [← List.take_append_drop n l, hxy]
  simp

theorem containsCRLF_append_cr (l : Bytes) :
    containsCRLF (l ++ ['\r']) = containsCRLF l := by
  induction l with
  | nil => decide
  | cons c rest ih =>
    rw [List.cons_append]
    simp only [containsCRLF, ih]
    cases rest with
    | nil => cases hc : c == '\r' <;> simp [containsCRLF, hc]
    | cons c2 t => rw [List.cons_append, List.head?_cons, List.head?_cons]

theorem containsCRLF_cons_false (c : Char) (rest : Bytes)
    (h : containsCRLF (c :: rest) = false) :
    (c == '\r' && rest.head? == some '\n') = false ∧ containsCRLF rest = false := by
  revert h
  simp only [containsCRLF]
  cases (c == '\r' && rest.head? == some '\n') <;> cases containsCRLF rest <;> simp

theorem lineSplit?_sound : ∀ d l r, lineSplit? d = some (l, r) → d = l ++ '\r' :: '\n' :: r := by
  intro d
  induction d with
  | nil => intro l r h; simp [lineSplit?] at h
  | cons c rest ih =>
    intro l r h
    by_cases hc : (c == '\r' && rest.head? == some '\n') = true
    · rw [lineSplit?, if_pos hc] at h
      have hc' : c = '\r' ∧ rest.head? = some '\n' := by simpa using hc
      cases rest with
      | nil => simp at hc'
      | cons c2 t =>
        simp only [List.head?_cons, Option.some.injEq] at hc'
        injection h with h
        have h1 : ([] : Bytes) = l := congrArg Prod.fst h
        have h2 : (c2 :: t).tail = r := congrArg Prod.snd h
        simp only [List.tail_cons] at h2
        rw [← h1, ← h2, hc'.1, hc'.2]
        simp
    · rw [lineSplit?, if_neg hc] at h
      rcases hmap : lineSplit? rest with _ | ⟨l', r'⟩
      · rw [hmap] at h; simp at h
      · rw [hmap] at h
        simp only [Option.map_some', Option.some.injEq] at h
        have h1 : c :: l' = l := congrArg Prod.fst h
        have h2 : r' = r := congrArg Prod.snd h
        rw [← h1, ← h2, List.cons_append]
        rw [← ih l' r' hmap]

theorem lineSplit?_append_crlf (l rest : Bytes) (hl : containsCRLF l = false) :
    lineSplit? (l ++ '\r' :: '\n' :: rest) = some (l, rest) := by
  induction l with
  | nil => simp [lineSplit?]
  | cons c t ih =>
    obtain ⟨h1, hl'⟩ := containsCRLF_cons_false c t hl
    have hcond : (c == '\r' && (t ++ '\r' :: '\n' :: rest).head? == some '\n') = false := by
      cases t with
      | nil =>
        cases hc : c == '\r' <;> simp [hc]
      | cons c2 t2 =>
        rw [List.cons_append, List.head?_cons]
        rwa [List.head?_cons] at h1
    rw [List.cons_append, lineSplit?, if_neg (by rw [hcond]; exact Bool.false_ne_true), ih hl']
    rfl

theorem parseLinesAux_fuel : ∀ f g (h : Headers) data, data.length < f → data.length < g →
    parseLinesAux f h data = parseLinesAux g h data := by
  intro f
  induction f with
  | zero => intro g h data hf; exact absurd hf (Nat.not_lt_zero _)
  | succ f ihf =>
    intro g h data hf hg
    cases g with
    | zero => exact absurd hg (Nat.not_lt_zero _)
    | succ g =>
      simp only [parseLinesAux]
      cases hls : lineSplit? data with
      | none => rfl
      | some p =>
        obtain ⟨line, rest⟩ := p
        cases line with
        | nil => rfl
        | cons c cs =>
          dsimp only
          cases hph : parseHeader (c :: cs) with
          | error e => rfl
          | ok nv =>
            obtain ⟨name, val⟩ := nv
            dsimp only
            have hd := lineSplit?_sound data (c :: cs) rest hls
            have hlen : rest.length < data.length := by
              rw [hd]; simp only [List.length_append, List.length_cons]; omega
            rw [ihf g (Headers.Set h name val) rest (by omega) (by omega)]

theorem parseLinesAux_succ (fuel : Nat) (h : Headers) (data : Bytes) :
    parseLinesAux (fuel + 1) h data = (match lineSplit? data with
      | none => ⟨h, 0, false, none⟩
      | some ([], _) => ⟨h, 2, true, none⟩
      | some (line, rest) =>
        match parseHeader line with
        | .error e => ⟨h, 0, false, some e⟩
        | .ok (name, val) =>
          let res := parseLinesAux fuel (Headers.Set h name val) rest
          match res.err with
          | some e => ⟨res.table, 0, false, some e⟩
          | none => ⟨res.table, line.length + 2 + res.read, res.done, none⟩) := rfl

theorem Parse_eq_of_noCRLF (h : Headers) (data : Bytes) (hd : containsCRLF data = false) :
    Headers.Parse h data = ⟨h, 0, false, none⟩ := by
  have hls : lineSplit? data = none := (lineSplit?_eq_none_iff data).mpr hd
  simp only [Headers.Parse, parseLinesAux, hls]

theorem Parse_terminator (h : Headers) (rest : Bytes) :
    Headers.Parse h ('\r' :: '\n' :: rest) = ⟨h, 2, true, none⟩ := rfl

theorem Parse_step (h : Headers) (line rest name val : Bytes)
    (hl : containsCRLF line = false) (hph : parseHeader line = .ok (name, val)) :
    Headers.Parse h (line ++ '\r' :: '\n' :: rest) =
      (match (Headers.Parse (Headers.Set h name val) rest).err with
       | some e => ⟨(Headers.Parse (Headers.Set h name val) rest).table, 0, false, some e⟩
       | none => ⟨(Headers.Parse (Headers.Set h name val) rest).table,
           line.length + 2 + (Headers.Parse (Headers.Set h name val) rest).read,
           (Headers.Parse (Headers.Set h name val) rest).done, none⟩) := by
  have hls : lineSplit? (line ++ '\r' :: '\n' :: rest) = some (line, rest) :=
    lineSplit?_append_crlf line rest hl
  cases line with
  | nil => simp [parseHeader, goCut] at hph
  | cons c cs =>
    have hlen : (c :: cs ++ '\r' :: '\n' :: rest).length = cs.length + 3 + rest.length := by
      simp only [List.cons_append, List.length_cons, List.length_append]; omega
    rw [Headers.Parse, hlen, parseLinesAux_succ, hls]
    dsimp only
    rw [hph]
    dsimp only
    rw [parseLinesAux_fuel (cs.length + 3 + rest.length) (rest.length + 1)
      (Headers.Set h name val) rest (by omega) (by omega)]
    rfl

theorem joinLines_nil : joinLines [] = [] := rfl

theorem joinLines_cons (l : Bytes) (ls : List Bytes) :
    joinLines (l :: ls) = l ++ '\r' :: '\n' :: joinLines ls := by
  simp [joinLines, crlf]

theorem applyLines_cons (h : Headers) (l : Bytes) (ls : List Bytes) :
    applyLines h (l :: ls) = applyLines (applyLine h l) ls := rfl

theorem validLine_elim (l : Bytes) (hv : validLine l = true) :
    containsCRLF l = false ∧ ∃ name val, parseHeader l = .ok (name, val) := by
  have h1 : containsCRLF l = false ∧
      (match parseHeader l with | .ok _ => true | .error _ => false) = true := by
    simpa [validLine] using hv
  refine ⟨h1.1, ?_⟩
  rcases hph : parseHeader l with e | nv
  · have := h1.2; rw [hph] at this; simp at this
  · obtain ⟨n1, v1⟩ := nv
    exact ⟨n1, v1, rfl⟩

/-- What one `Headers.Parse` call does to any prefix of a valid header
block: either the buffer holds the whole block (the call consumes
everything, reports completion, and commits every line), or the call
commits exactly the complete lines at the front of the buffer and leaves
a CRLF-free remainder unconsumed. -/
theorem Parse_on_block_part :
    ∀ ls (h : Headers) d e,
      (∀ l ∈ ls, validLine l = true) →
      d ++ e = joinLines ls ++ '\r' :: '\n' :: [] →
      (e = [] ∧ Headers.Parse h d = ⟨applyLines h ls, d.length, true, none⟩) ∨
      (∃ k pending, k ≤ ls.length ∧ d = joinLines (ls.take k) ++ pending ∧
        containsCRLF pending = false ∧
        pending ++ e = joinLines (ls.drop k) ++ '\r' :: '\n' :: [] ∧
        Headers.Parse h d = ⟨applyLines h (ls.take k), (joinLines (ls.take k)).length, false, none⟩) := by
  intro ls
  induction ls with
  | nil =>
    intro h d e hv hb
    simp only [joinLines_nil, List.nil_append] at hb
    cases d with
    | nil =>
      right
      refine ⟨0, [], Nat.zero_le _, by simp [joinLines_nil], rfl, ?_, ?_⟩
      · simpa [joinLines_nil] using hb
      · rw [Parse_eq_of_noCRLF h [] rfl]; rfl
    | cons c d' =>
      rw [List.cons_append] at hb
      injection hb with hc hb2
      cases d' with
      | nil =>
        right
        subst hc
        refine ⟨0, ['\r'], Nat.zero_le _, by simp [joinLines_nil], rfl, ?_, ?_⟩
        · simp only [List.nil_append] at hb2
          simp [joinLines_nil, hb2]
        · rw [Parse_eq_of_noCRLF h ['\r'] rfl]; rfl
      | cons c2 d'' =>
        rw [List.cons_append] at hb2
        injection hb2 with hc2 hb3
        have hd'' : d'' = [] := (List.append_eq_nil.mp hb3).1
        have he : e = [] := (List.append_eq_nil.mp hb3).2
        subst hc; subst hc2; subst hd''; subst he
        left
        exact ⟨rfl, by rw [Parse_terminator]; rfl⟩
  | cons l ls' ih =>
    intro h d e hv hb
    obtain ⟨hlcr, name, val, hph⟩ := validLine_elim l (hv l (List.mem_cons_self _ _))
    have hb' : d ++ e = l ++ '\r' :: '\n' :: (joinLines ls' ++ '\r' :: '\n' :: []) := by
      rw [hb, joinLines_cons]
      simp
    rcases Nat.lt_or_ge d.length (l.length + 2) with hlen | hlen
    · right
      have hdpre : d = (l ++ ['\r']).take d.length := by
        have h1 : (d ++ e).take d.length = d := List.take_left d e
        conv_lhs => rw [← h1]
        rw [hb']
        rw [show l ++ '\r' :: '\n' :: (joinLines ls' ++ '\r' :: '\n' :: []) =
            (l ++ ['\r']) ++ ('\n' :: (joinLines ls' ++ '\r' :: '\n' :: [])) from by simp]
        rw [List.take_append_of_le_length (by simp [List.length_append]; omega)]
      have hdcr : containsCRLF d = false := by
        have h2 : ¬ containsCRLF (l ++ ['\r']) = true := by
          rw [containsCRLF_append_cr, hlcr]; exact Bool.false_ne_true
        have h3 : ¬ containsCRLF d = true := by
          rw [hdpre]; exact fun hx => h2 (containsCRLF_take _ _ hx)
        exact Bool.eq_false_iff.mpr h3
      refine ⟨0, d, Nat.zero_le _, by simp [joinLines_nil], hdcr, ?_, ?_⟩
      · simpa using hb
      · rw [Parse_eq_of_noCRLF h d hdcr]; rfl
    · have hdtake : d.take (l.length + 2) = l ++ ['\r', '\n'] := by
        have h1 : (d ++ e).take (l.length + 2) = d.take (l.length + 2) :=
          List.take_append_of_le_length hlen
        rw [← h1, hb']
        rw [show l ++ '\r' :: '\n' :: (joinLines ls' ++ '\r' :: '\n' :: []) =
            (l ++ ['\r', '\n']) ++ (joinLines ls' ++ '\r' :: '\n' :: []) from by simp]
        rw [List.take_left' (by simp)]
      obtain ⟨d2, rfl⟩ : ∃ d2, d = l ++ '\r' :: '\n' :: d2 := by
        refine ⟨d.drop (l.length + 2), ?_⟩
        conv_lhs => rw [← List.take_append_drop (l.length + 2) d, hdtake]
        simp
      have hd2e : d2 ++ e = joinLines ls' ++ '\r' :: '\n' :: [] := by
        simpa using hb'
      have hv' : ∀ x ∈ ls', validLine x = true := fun x hx => hv x (List.mem_cons_of_mem _ hx)
      have hstep := Parse_step h l d2 name val hlcr hph
      have happly : Headers.Set h name val = applyLine h l := by
        simp [applyLine, hph]
      rcases ih (Headers.Set h name val) d2 e hv' hd2e with ⟨he, hp⟩ | ⟨k, pending, hk, hdeq, hpend, hpe, hp⟩
      · left
        refine ⟨he, ?_⟩
        rw [hstep, hp]
        dsimp only
        rw [happly]
        simp [applyLines_cons, List.length_append]; omega
      · right
        refine ⟨k + 1, pending, ?_, ?_, hpend, ?_, ?_⟩
        · simp only [List.length_cons]; omega
        · rw [List.take_succ_cons, joinLines_cons, hdeq]
          simp
        · simpa [List.drop_succ_cons] using hpe
        · rw [hstep, hp]
          dsimp only
          rw [happly]
          simp [applyLines_cons, List.take_succ_cons, joinLines_cons, List.length_append]; omega

theorem feedChunks_empties : ∀ cs (h : Headers), (∀ c ∈ cs, c = ([] : Bytes)) →
    feedChunks cs h [] = some (h, [], 0) := by
  intro cs
  induction cs with
  | nil => intro h _; rfl
  | cons c cs' ih =>
    intro h hc
    have hcnil : c = [] := hc c (List.mem_cons_self _ _)
    subst hcnil
    have hres : Headers.Parse h ([] : Bytes) = ⟨h, 0, false, none⟩ :=
      Parse_eq_of_noCRLF h [] rfl
    simp only [feedChunks, List.nil_append, hres, List.drop_nil]
    rw [ih h (fun x hx => hc x (List.mem_cons_of_mem _ hx))]
    rfl

/-- Chunk-fed parsing of a valid header block: every call succeeds, the
lines commit in order, and after the final chunk the whole block is
consumed with nothing pending. -/
theorem feedChunks_block :
    ∀ cs (h : Headers) p ls,
      (∀ l ∈ ls, validLine l = true) →
      containsCRLF p = false →
      p ++ cs.flatten = joinLines ls ++ '\r' :: '\n' :: [] →
      feedChunks cs h p = some (applyLines h ls, [], p.length + cs.flatten.length) := by
  intro cs
  induction cs with
  | nil =>
    intro h p ls hv hp hb
    exfalso
    simp only [List.flatten_nil, List.append_nil] at hb
    rw [hb, containsCRLF_append_crlf_true] at hp
    exact absurd hp (by simp)
  | cons c cs' ih =>
    intro h p ls hv hp hb
    have hb2 : (p ++ c) ++ cs'.flatten = joinLines ls ++ '\r' :: '\n' :: [] := by
      simpa [List.append_assoc, List.flatten_cons] using hb
    rcases Parse_on_block_part ls h (p ++ c) cs'.flatten hv hb2 with
      ⟨he, hp2⟩ | ⟨k, pending, hk, hdeq, hpend, hpe, hp2⟩
    · simp only [feedChunks, hp2]
      rw [List.drop_length]
      have hempty : ∀ x ∈ cs', x = ([] : Bytes) := List.flatten_eq_nil_iff.mp he
      rw [feedChunks_empties cs' _ hempty]
      simp only [Option.map_some']
      refine congrArg some ?_
      refine congrArg _ ?_
      simp [List.flatten_cons, he, List.length_append]
    · simp only [feedChunks, hp2]
      have hdrop : (p ++ c).drop (joinLines (ls.take k)).length = pending := by
        rw [hdeq]; exact List.drop_left _ _
      rw [hdrop]
      have hvd : ∀ l ∈ ls.drop k, validLine l = true :=
        fun l hl => hv l (List.mem_of_mem_drop hl)
      rw [ih (applyLines h (ls.take k)) pending (ls.drop k) hvd hpend hpe]
      simp only [Option.map_some']
      have htab : applyLines (applyLines h (ls.take k)) (ls.drop k) = applyLines h ls := by
        show (ls.drop k).foldl applyLine ((ls.take k).foldl applyLine h) = ls.foldl applyLine h
        rw [← List.foldl_append, List.take_append_drop]
      rw [htab]
      have hlen2 : (joinLines (ls.take k)).length + pending.length = p.length + c.length := by
        have hlc := congrArg List.length hdeq
        simp only [List.length_append] at hlc
        omega
      simp only [Option.some.injEq, Prod.mk.injEq, List.flatten_cons, List.length_append]
      refine ⟨trivial, trivial, ?_⟩
      omega

theorem bigRequest_take_1024 : bigRequest.take 1024 = str "GET /" ++ List.replicate 1019 'a' := by
  have h5 : (str "GET /").length = 5 := rfl
  have hlen2 : (str "GET /" ++ List.replicate 1200 'a').length = 1205 := by
    rw [List.length_append, h5, List.length_replicate]
  rw [bigRequest, List.take_append_eq_append_take, List.take_append_eq_append_take,
    hlen2, h5, List.take_of_length_le (by rw [h5]; omega), List.take_replicate]
  norm_num

theorem bigRequest_length : bigRequest.length = 1218 := by
  have h5 : (str "GET /").length = 5 := rfl
  have h13 : (str " HTTP/1.1\r\n\r\n").length = 13 := rfl
  rw [bigRequest, List.length_append, List.length_append, h5, h13, List.length_replicate]

theorem lineSplit?_bigRequest_take : lineSplit? (bigRequest.take 1024) = none := by
  rw [bigRequest_take_1024, lineSplit?_eq_none_iff]
  apply containsCRLF_eq_false_of_no_cr
  intro c hc
  rcases List.mem_append.mp hc with h | h
  · clear hc; revert h; revert c; decide
  · rw [List.eq_of_mem_replicate h]; decide

theorem bigRequest_drop_ne_nil : ¬ bigRequest.drop 1024 = ([] : Bytes) := by
  intro h
  have := congrArg List.length h
  rw [List.length_drop, bigRequest_length] at this
  simp at this

/-- C2: the claim reads `Set` as appending with a comma separator, as the
repository's own test asserts (`"localhost:42069,localhost:42069,localhost:42068"`),
but `headers.go` overwrites: after `Set("Host","a"); Set("HOST","b")`,
`Get("host")` is `"b"`, not `"a,b"`. -/
theorem C2_set_overwrites_instead_of_appending :
    Headers.Get (Headers.Set (Headers.Set [] (str "Host") (str "a")) (str "HOST") (str "b"))
      (str "host") = str "b" ∧ str "b" ≠ str "a,b" := by decide

/-- C4: a request whose Content-Length parses to a negative integer makes
the body state compute `toRead = min(-1 - 0, 0) = -1 < 0`, so the source
evaluates `currentData[:-1]`, an out-of-range slice bound: the embedded
parse reaches the `fault` outcome instead of returning an error. -/
theorem C4_negative_content_length_faults :
    Request.parse 8 newRequest (str "POST /a HTTP/1.1\r\nContent-Length: -1\r\n\r\n") 0
      = some (.fault ⟨⟨str "1.1", str "/a", str "POST"⟩, .StateBody,
          [(str "content-length", str "-1")], []⟩) := by decide

/-- C6: a good request line parses and a 2-token line is a
malformed-request-line error, but the version check at line 70 of
`request.go` returns `ERROR_MALFORMED_REQUESTLINE` as well — the declared
`ERROR_UNSUPPORTED_HTTP_VERSION` is never returned, so `HTTP/1.0` does
not produce a distinct unsupported-version error kind. -/
theorem C6_version_error_is_malformed_kind :
    parseRequestLine (str "GET /x HTTP/1.1\r\n") = .ok (some (⟨str "1.1", str "/x", str "GET"⟩, 17)) ∧
    parseRequestLine (str "GET /x\r\n") = .error .malformedRequestLine ∧
    parseRequestLine (str "GET /x HTTP/1.0\r\n") = .error .malformedRequestLine ∧
    HttpError.malformedRequestLine ≠ HttpError.unsupportedHttpVersion := by decide

/-- C7: `isToken` tests the alphanumeric ranges with strict inequalities,
so the boundary characters `A`, `Z`, `a`, `z`, `0`, `9` are rejected —
`"Accept"` is refused as a header name — while interior characters such
as those of `"Host"` pass; a space before the colon is also rejected
(via the same character test). -/
theorem C7_boundary_alnum_rejected :
    isToken (str "A") = false ∧ isToken (str "z") = false ∧ isToken (str "0") = false ∧
    isToken (str "9") = false ∧ isToken (str "Host") = true ∧ isToken (str "BCy18") = true ∧
    (Headers.Parse [] (str "Accept: x\r\n")).err = some .malformedHeaderName ∧
    (Headers.Parse [] (str "Host : x\r\n")).err = some .malformedHeaderName := by decide

/-- C10: `Get` in `headers.go` returns only the map value, so a name that
was never set and a name set to the empty value both read back as the
empty string — the two tables differ, yet `Get` cannot distinguish
them (no existence flag is returned). -/
theorem C10_get_has_no_existence_flag :
    Headers.Get (Headers.Set [] (str "x") []) (str "x") = Headers.Get [] (str "x") ∧
    Headers.Set [] (str "x") [] ≠ ([] : Headers) := by decide

/-- Once the parser is in the body state with a positive remaining target
and no unconsumed data, the loop of `Request.parse` repeats the body case
with `toRead = 0` forever: the state machine has no "need more data" exit
in that case, so the call returns on no fuel at all. -/
theorem Request.parse_body_starved (fuel : Nat) :
    ∀ r data read, r.state = .StateBody → data.drop read = [] →
      0 < getInt r.headers (str "content-length") 0 →
      (r.body.length : Int) < getInt r.headers (str "content-length") 0 →
      Request.parse fuel r data read = none := by
  induction fuel with
  | zero => intro r data read _ _ _ _; rfl
  | succ fuel ih =>
    intro r data read hst hdrop hpos hlt
    have hne : ¬ getInt r.headers (str "content-length") 0 = 0 := by omega
    have hmin : min (getInt r.headers (str "content-length") 0 - (r.body.length : Int))
        ((0 : Nat) : Int) = 0 := by omega
    simp only [Request.parse, hst, hdrop, List.length_nil, hmin, if_neg hne,
      List.take_nil, List.append_nil, Int.toNat_zero, lt_irrefl, if_false]
    rw [if_neg (by omega)]
    exact ih _ _ _ rfl (by simpa using hdrop) hpos (by simpa using hlt)

/-- C3: fed one byte at a time, the example request never reaches Done:
when the blank line completes, `Request.parse` moves to the body state
with an empty unconsumed buffer and a target of 5, and its loop never
returns (generous fuel is exhausted in the driver, and the parse call at
that point returns on no fuel at all), where the claim expects Done with
body `"hello"`. -/
theorem C3_split_body_never_reaches_done :
    RequestFromReader 60 newRequest [] (byteChunks postExample) = none ∧
    (∀ fuel, Request.parse fuel midRequest (str "\r\n") 0 = none) := by
  refine ⟨by decide, fun fuel => ?_⟩
  cases fuel with
  | zero => rfl
  | succ fuel =>
    have hres : Headers.Parse midRequest.headers ((str "\r\n").drop 0)
        = ⟨[(str "content-length", str "5")], 2, true, none⟩ := by decide
    simp only [Request.parse, midRequest, hres]
    norm_num
    exact Request.parse_body_starved fuel _ _ _ rfl (by decide) (by decide) (by decide)

/-- Once the 1024-byte buffer is full of an incomplete request line, the
read loop of `RequestFromReader` makes no further progress: the reader is
handed zero free bytes, `parse` consumes nothing, and the identical
iteration repeats forever. -/
theorem requestFromReader_buffer_stuck (fuel : Nat) :
    ∀ r buf c, r.state = .StateInit → buf.length = 1024 → lineSplit? buf = none →
      c ≠ [] → RequestFromReader fuel r buf [c] = none := by
  induction fuel with
  | zero => intro r buf c _ _ _ _; rfl
  | succ fuel ih =>
    intro r buf c hst hlen hsplit hc
    have hnd : ¬ r.state = ParserState.StateDone := by rw [hst]; decide
    have hpr : parseRequestLine buf = .ok none := by
      simp only [parseRequestLine, hsplit]
    simp only [RequestFromReader, if_neg hnd, hlen]
    norm_num
    rw [if_neg hc]
    simp only [Request.parse, hst, List.drop_zero, hpr]
    exact ih r buf c hst hlen hsplit hc

/-- The first iteration of `RequestFromReader` on an empty buffer and a
message whose first 1024 bytes contain no complete request line: the
fixed buffer fills, `parse` consumes nothing, and the rest of the
message is pushed back. -/
theorem requestFromReader_first_read (fuel : Nat) (r : Request) (msg : Bytes)
    (hst : r.state = .StateInit) (hpr : parseRequestLine (msg.take 1024) = .ok none)
    (hne : ¬ msg.drop 1024 = ([] : Bytes)) :
    RequestFromReader (fuel + 1) r [] [msg]
      = RequestFromReader fuel r (msg.take 1024) [msg.drop 1024] := by
  have hnd : ¬ r.state = ParserState.StateDone := by rw [hst]; decide
  simp only [RequestFromReader, if_neg hnd, List.length_nil, Nat.sub_zero, List.nil_append]
  rw [if_neg hne]
  simp only [Request.parse, hst, List.drop_zero, hpr]

/-- `RequestFromReader` never completes `bigRequest`: the first read
fills the fixed buffer with the first 1024 bytes of the request line, no
CRLF is found, and the loop is stuck. -/
theorem requestFromReader_big_none (fuel : Nat) :
    RequestFromReader fuel newRequest [] [bigRequest] = none := by
  cases fuel with
  | zero => rfl
  | succ fuel =>
    have hpr : parseRequestLine (bigRequest.take 1024) = .ok none := by
      simp only [parseRequestLine, lineSplit?_bigRequest_take]
    rw [requestFromReader_first_read fuel newRequest bigRequest rfl hpr bigRequest_drop_ne_nil]
    refine requestFromReader_buffer_stuck fuel newRequest _ _ rfl ?_ lineSplit?_bigRequest_take
      bigRequest_drop_ne_nil
    rw [List.length_take, bigRequest_length]
    decide

/-- C5 counterexample: `bigRequest` is a valid message (three tokens,
version `HTTP/1.1`, empty header section), yet the read-until-done loop
never returns on it — the buffer is the fixed `make([]byte, 1024)`, not
a growable one, so a header section exceeding 1024 bytes cannot
complete. -/
theorem C5_oversized_request_line_never_completes :
    ¬ ∃ fuel res, RequestFromReader fuel newRequest [] [bigRequest] = some res := by
  rintro ⟨fuel, res, h⟩
  rw [requestFromReader_big_none fuel] at h
  exact Option.noConfusion h

/-- C8: whenever `Headers.Parse` reports a validation error it reports 0
bytes consumed and an incomplete header section, for every table and
every input buffer. -/
theorem C8_error_reports_zero_consumed (h : Headers) (data : Bytes) (e : HttpError)
    (he : (Headers.Parse h data).err = some e) :
    (Headers.Parse h data).read = 0 ∧ (Headers.Parse h data).done = false := by
  unfold Headers.Parse at he ⊢
  generalize data.length + 1 = fuel at he ⊢
  cases fuel with
  | zero => simp [parseLinesAux] at he
  | succ fuel =>
    cases hls : lineSplit? data with
    | none => simp [parseLinesAux, hls] at he
    | some p =>
      obtain ⟨line, rest⟩ := p
      cases line with
      | nil => simp [parseLinesAux, hls] at he
      | cons c cs =>
        cases hph : parseHeader (c :: cs) with
        | error e2 => simp [parseLinesAux, hls, hph]
        | ok nv =>
          obtain ⟨name, val⟩ := nv
          cases hre : (parseLinesAux fuel (Headers.Set h name val) rest).err with
          | none => simp [parseLinesAux, hls, hph, hre] at he
          | some e3 => simp [parseLinesAux, hls, hph, hre]

/-- C8 witness: the spec's own example `"N@me: value\r\n"` errors with 0
bytes consumed. -/
theorem C8_error_reports_zero_consumed_witness :
    (Headers.Parse [] (str "N@me: value\r\n")).read = 0 ∧
    (Headers.Parse [] (str "N@me: value\r\n")).done = false :=
  C8_error_reports_zero_consumed [] (str "N@me: value\r\n") .malformedHeaderName (by decide)

/-- C8 counterexample: a valid field line followed by a malformed one
reports the error and 0 bytes consumed, but the `Set` for the valid line
has already been committed: the table is `[host ↦ x]`, not the empty
table it was before the call. -/
theorem C8_committed_set_persists_on_error :
    (Headers.Parse [] (str "Host: x\r\nN@me: value\r\n")).read = 0 ∧
    (Headers.Parse [] (str "Host: x\r\nN@me: value\r\n")).err = some .malformedHeaderName ∧
    (Headers.Parse [] (str "Host: x\r\nN@me: value\r\n")).table = [(str "host", str "x")] ∧
    [(str "host", str "x")] ≠ ([] : Headers) := by decide

/-- C9: across any sequence of `Request.parse` calls the state rank never
decreases (each call maps its request to an outcome of rank at least as
large), and Done is terminal: a call in the Done state consumes 0 bytes
and returns the request unchanged. -/
theorem C9_state_monotone_and_done_terminal :
    (∀ fuel r data read o, Request.parse fuel r data read = some o →
        stateRank r.state ≤ stateRank o.request.state) ∧
    (∀ fuel r data, r.state = .StateDone → Request.parse (fuel + 1) r data 0 = some (.ok r 0)) := by
  constructor
  · intro fuel
    induction fuel with
    | zero => intro r data read o h; exact absurd h (by simp [Request.parse])
    | succ fuel ih =>
      intro r data read o h
      simp only [Request.parse] at h
      cases hst : r.state <;> rw [hst] at h
      case StateInit =>
        cases hpr : parseRequestLine (data.drop read) with
        | error e => rw [hpr] at h; injection h with h; subst h
                     simp [ParseOutcome.request, hst]
        | ok v =>
          cases v with
          | none => rw [hpr] at h; injection h with h; subst h
                    simp [ParseOutcome.request, hst]
          | some rln =>
            obtain ⟨rl, n⟩ := rln
            rw [hpr] at h
            have := ih _ _ _ _ h
            simp only [hst, stateRank] at this ⊢
            omega
      case StateHeaders =>
        cases hre : (Headers.Parse r.headers (data.drop read)).err with
        | some e =>
          rw [hre] at h; injection h with h; subst h
          simp [ParseOutcome.request, hst]
        | none =>
          rw [hre] at h
          by_cases hr0 : (Headers.Parse r.headers (data.drop read)).read = 0
          · rw [if_pos hr0] at h; injection h with h; subst h
            simp [ParseOutcome.request, hst]
          · rw [if_neg hr0] at h
            have hle := ih _ _ _ _ h
            refine le_trans ?_ hle
            cases (Headers.Parse r.headers (data.drop read)).done <;> simp [stateRank]
      case StateBody =>
        by_cases hl : getInt r.headers (str "content-length") 0 = 0
        · rw [if_pos hl] at h
          have := ih _ _ _ _ h
          simp only [hst, stateRank] at this ⊢
          omega
        · rw [if_neg hl] at h
          by_cases hneg : min (getInt r.headers (str "content-length") 0 - (r.body.length : Int))
              ((data.drop read).length : Int) < 0
          · rw [if_pos hneg] at h; injection h with h; subst h
            simp [ParseOutcome.request, hst]
          · rw [if_neg hneg] at h
            by_cases hfull : ((r.body ++ (data.drop read).take
                (min (getInt r.headers (str "content-length") 0 - (r.body.length : Int))
                  ((data.drop read).length : Int)).toNat).length : Int)
                = getInt r.headers (str "content-length") 0
            · rw [if_pos hfull] at h
              have := ih _ _ _ _ h
              simp only [hst, stateRank] at this ⊢
              omega
            · rw [if_neg hfull] at h
              have := ih _ _ _ _ h
              simp only [hst, stateRank] at this ⊢
              omega
      case StateDone =>
        injection h with h; subst h
        simp [ParseOutcome.request, hst]
  · intro fuel r data hst
    simp only [Request.parse, hst]

/-- C9 witness: one call from the initial state on an empty buffer keeps
the rank, and a call in the Done state returns the request unchanged with
0 consumed. -/
theorem C9_state_monotone_and_done_terminal_witness :
    stateRank newRequest.state ≤ stateRank (ParseOutcome.ok newRequest 0).request.state ∧
    Request.parse 1 ⟨⟨[], [], []⟩, .StateDone, [], []⟩ [] 0
      = some (.ok ⟨⟨[], [], []⟩, .StateDone, [], []⟩ 0) :=
  ⟨C9_state_monotone_and_done_terminal.1 1 newRequest [] 0 _ (by decide),
   C9_state_monotone_and_done_terminal.2 0 _ [] rfl⟩

/-- C5 amended: the buffer of `RequestFromReader` is fixed at 1024 bytes;
a message whose unconsumed data always fits it is completed (an 18-byte
GET terminates with the completed request), while a message whose request
line exceeds 1024 bytes never completes. -/
theorem C5_fixed_buffer_completion :
    RequestFromReader 6 newRequest [] [str "GET / HTTP/1.1\r\n\r\n"]
      = some (.ok ⟨⟨str "1.1", str "/", str "GET"⟩, .StateDone, [], []⟩) ∧
    (∀ fuel, RequestFromReader fuel newRequest [] [bigRequest] = none) :=
  ⟨by decide, requestFromReader_big_none⟩

/-- C1: for every valid header block, parsing the whole byte sequence in
one `Headers.Parse` call and parsing it split into any sequence of
sub-chunks under the retained-suffix protocol produce the same resulting
table and the same total bytesConsumed; the single call completes the
header section without error, and the chunked run ends with no pending
bytes. -/
theorem C1_chunked_headers_parse_agrees (ls cs : List Bytes) (h0 : Headers)
    (hv : ∀ l ∈ ls, validLine l = true)
    (hcs : cs.flatten = joinLines ls ++ crlf) :
    (Headers.Parse h0 (joinLines ls ++ crlf)).done = true ∧
    (Headers.Parse h0 (joinLines ls ++ crlf)).err = none ∧
    feedChunks cs h0 [] =
      some ((Headers.Parse h0 (joinLines ls ++ crlf)).table, [],
        (Headers.Parse h0 (joinLines ls ++ crlf)).read) := by
  have hcrlf : (crlf : Bytes) = '\r' :: '\n' :: [] := rfl
  have hsingle := Parse_on_block_part ls h0 (joinLines ls ++ crlf) [] hv
    (by rw [hcrlf]; simp)
  rcases hsingle with ⟨_, hp⟩ | ⟨k, pending, _, _, hpend, hpe, _⟩
  · rw [hp]
    refine ⟨rfl, rfl, ?_⟩
    have hfeed := feedChunks_block cs h0 [] ls hv rfl
      (by rw [List.nil_append, hcs, hcrlf])
    rw [hfeed]
    simp [hcs, hcrlf, List.length_append]
  · exfalso
    rw [List.append_nil] at hpe
    rw [hpe, containsCRLF_append_crlf_true] at hpend
    exact absurd hpend (by simp)

/-- C1 witness: the block `"Hi: x\r\n\r\n"` parsed whole and parsed as
the chunks `"Hi" / ": x\r" / "\n\r\n"` give the same table and the same
total consumed count. -/
theorem C1_chunked_headers_parse_agrees_witness :
    (Headers.Parse [] (joinLines [str "Hi: x"] ++ crlf)).done = true ∧
    (Headers.Parse [] (joinLines [str "Hi: x"] ++ crlf)).err = none ∧
    feedChunks [str "Hi", str ": x\r", str "\n\r\n"] [] [] =
      some ((Headers.Parse [] (joinLines [str "Hi: x"] ++ crlf)).table, [],
        (Headers.Parse [] (joinLines [str "Hi: x"] ++ crlf)).read) :=
  C1_chunked_headers_parse_agrees [str "Hi: x"] [str "Hi", str ": x\r", str "\n\r\n"] []
    (by decide) (by decide)
